import Mathlib

/-!
Shallow embedding of the webgl-map tile engine (src/src/index.js,
src/utils/map-utils.js, src/workers/tile-worker.js, and the
MercatorCoordinate helper), together with theorems settling the frozen
claims about the tile cache, viewport resolver, placeholder fallback,
tile decoder shaping, geometry triangulation and the Mercator projection.
-/

namespace WebglMap

/-- A tile key `(x, y, z)`.  Integers (not naturals) because the buffered
tile walk in `updateTiles` produces negative coordinates (parents of
`z = 0`, buffer margins left of `x = 0`) which the range filter must see. -/
abbrev TileKey := ℤ × ℤ × ℤ

/-- `MAX_TILE_ZOOM` from src/src/index.js line 43. -/
def MAX_TILE_ZOOM : ℤ := 14

/-- One entry of a decoded tile's data: `{ layer, type, vertices }` as
produced by `fetchTile` in src/utils/map-utils.js.  Vertices are modelled
as rationals (JS doubles are a subset of ℚ). -/
structure FeatureSet where
  layer : String
  type : String
  vertices : List ℚ
deriving DecidableEq, Repr

/-- A JavaScript value stored in `this.tiles[tile]`: either `undefined`
(key never written, or explicitly assigned `undefined` after a worker
failure) or an array of feature sets (possibly empty: the Pending
placeholder `[]` and the Empty result are both arrays). -/
inductive JsVal where
  | undefinedJS : JsVal
  | arr : List FeatureSet → JsVal
deriving DecidableEq, Repr

/-- JS truthiness of a cache entry as tested by `if (this.tiles[tile])`
in src/src/index.js line 206: `undefined` is falsy, every array —
including the empty placeholder `[]` — is truthy. -/
def jsTruthy : JsVal → Bool
  | .undefinedJS => false
  | .arr _ => true

/-- The feature sets held by a cache value (`undefined` holds none). -/
def jsFeatures : JsVal → List FeatureSet
  | .undefinedJS => []
  | .arr fs => fs

/-- The tile cache `this.tiles`.  JS object property access returns
`undefined` for missing keys, and nothing in the engine distinguishes a
missing key from a key holding `undefined`, so the cache is a total map
into `JsVal`. -/
def TileCache := TileKey → JsVal

/-- Property assignment `this.tiles[k] = v`. -/
def setTile (c : TileCache) (k : TileKey) (v : JsVal) : TileCache :=
  fun k' => if k' = k then v else c k'

/-- One iteration of the dispatch loop of `updateTiles`
(src/src/index.js lines 205-214): skip the tile if its cache entry is
truthy, otherwise insert the empty placeholder `[]` and record a
dispatched fetch request for the key. -/
def loadStep (st : TileCache × List TileKey) (k : TileKey) : TileCache × List TileKey :=
  if jsTruthy (st.1 k) then st
  else (setTile st.1 k (.arr []), st.2 ++ [k])

/-- The whole dispatch loop of one `updateTiles` pass over a load list:
returns the updated cache and the list of keys for which a fetch was
dispatched (`tileWorker.postMessage`), in dispatch order. -/
def loadTilesPass (c : TileCache) (l : List TileKey) : TileCache × List TileKey :=
  l.foldl loadStep (c, [])

/-- A sequence of `updateTiles` passes with no worker response applied in
between (the situation of overlapping load lists issued before the first
request resolves): threads the cache through and concatenates the
dispatched keys. -/
def multiPass (c : TileCache) : List (List TileKey) → TileCache × List TileKey
  | [] => (c, [])
  | l :: ls =>
    let p := loadTilesPass c l
    let q := multiPass p.1 ls
    (q.1, p.2 ++ q.2)

/-- The range filter of `updateTiles` (src/src/index.js lines 190-198):
`x ∈ [0, 2^z)`, `y ∈ [0, 2^z)`, `z ∈ [0, MAX_TILE_ZOOM]`.  The bound
`N = Math.pow(2, z)` is a real power, so it is modelled as a rational
`zpow` (for negative `z` the code compares against a fractional `N`;
the conjunction is nevertheless false there because of `validZ`). -/
def tileInRange (t : TileKey) : Bool :=
  let N : ℚ := (2 : ℚ) ^ t.2.2
  (decide (t.1 ≥ 0) && decide ((t.1 : ℚ) < N)) &&
  (decide (t.2.1 ≥ 0) && decide ((t.2.1 : ℚ) < N)) &&
  (decide (t.2.2 ≥ 0) && decide (t.2.2 ≤ MAX_TILE_ZOOM))

/-- `updateTiles` applies the range filter to the deduplicated candidate
list and only then runs the dispatch loop. -/
def updateTilesDispatch (c : TileCache) (cands : List TileKey) :
    TileCache × List TileKey :=
  loadTilesPass c (cands.filter tileInRange)

/-- The worker-response handler `handleTileWorker`
(src/src/index.js lines 239-242): `this.tiles[tile] = tileData`.
On failure the worker posts `{ tile }` with no `tileData`
(src/workers/tile-worker.js line 12), so the handler assigns
`undefined`; modelled by `none`. -/
def handleTileWorker (c : TileCache) (tile : TileKey)
    (tileData : Option (List FeatureSet)) : TileCache :=
  setTile c tile (match tileData with
    | some d => .arr d
    | none => .undefinedJS)

/-- The initially empty tile cache `this.tiles = {}`. -/
def emptyCache : TileCache := fun _ => .undefinedJS

/-- `tilebelt.getParent([x, y, z]) = [x >> 1, y >> 1, z - 1]`, modelled
from the `@mapbox/tilebelt` dependency (an external collaborator of the
repository); JS `>>` is an arithmetic right shift, i.e. floor division
by 2, hence `Int.fdiv`. -/
def getParent (t : TileKey) : TileKey :=
  (t.1.fdiv 2, t.2.1.fdiv 2, t.2.2 - 1)

/-- `tilebelt.getChildren([x, y, z])`, modelled from the
`@mapbox/tilebelt` dependency, in tilebelt's order. -/
def getChildren (t : TileKey) : List TileKey :=
  [ (2 * t.1, 2 * t.2.1, t.2.2 + 1),
    (2 * t.1 + 1, 2 * t.2.1, t.2.2 + 1),
    (2 * t.1 + 1, 2 * t.2.1 + 1, t.2.2 + 1),
    (2 * t.1, 2 * t.2.1 + 1, t.2.2 + 1) ]

/-- The integer interval `[a, b]` as a list, the values taken by
`for (let i = a; i <= b; i++)`. -/
def intRange (a b : ℤ) : List ℤ :=
  (List.range (b + 1 - a).toNat).map (fun i : ℕ => a + (i : ℤ))

/-- The buffered tile list built by `updateTiles`
(src/src/index.js lines 170-180): for every `(bufX, bufY)` in the
buffer-expanded rectangle, push the tile itself, its parent, and its
grandparent, in that order. -/
def bufferedTilesList (minX maxX minY maxY tileBuffer z : ℤ) : List TileKey :=
  (intRange (minX - tileBuffer) (maxX + tileBuffer)).flatMap (fun bufX =>
    (intRange (minY - tileBuffer) (maxY + tileBuffer)).flatMap (fun bufY =>
      [ (bufX, bufY, z),
        getParent (bufX, bufY, z),
        getParent (getParent (bufX, bufY, z)) ]))

/-- The test `featureSet?.length > 0` applied to a cache value:
`undefined?.length` is `undefined` and the comparison is false; an array
passes iff it is non-empty. -/
def jsLenPos : JsVal → Bool
  | .undefinedJS => false
  | .arr fs => decide (0 < fs.length)

/-- The `children.forEach` accumulation of `getPlaceholderTile`
(src/src/index.js lines 227-234): concatenate the feature sets of those
direct children whose cache entry is present and non-empty. -/
def childFeatureSets (c : TileCache) (t : TileKey) : List FeatureSet :=
  (getChildren t).foldl (fun acc child =>
    if jsLenPos (c child) then acc ++ jsFeatures (c child) else acc) []

/-- `getPlaceholderTile` (src/src/index.js lines 218-236): use the
direct parent's feature sets if present and non-empty, otherwise
whatever direct children are available. -/
def getPlaceholderTile (c : TileCache) (t : TileKey) : List FeatureSet :=
  if jsLenPos (c (getParent t)) then jsFeatures (c (getParent t))
  else childFeatureSets c t

/-- Modelled from the spec: the placeholder fallback as the claim (and
spec section 4.5) words it — walk up one level at a time and return the
feature sets of the nearest ancestor whose entry is Ready and non-empty.
The fuel argument is the number of ancestor levels still above the tile.
This is the refinement target the code is compared against; the walk
itself is absent from the code, which only consults the direct parent. -/
def nearestReadyAncestorFS (c : TileCache) : ℕ → TileKey → Option (List FeatureSet)
  | 0, _ => none
  | fuel + 1, t =>
    match c (getParent t) with
    | .arr fs =>
      if fs ≠ [] then some fs else nearestReadyAncestorFS c fuel (getParent t)
    | .undefinedJS => nearestReadyAncestorFS c fuel (getParent t)

/-- A sample feature set for concrete counterexamples/witnesses. -/
def sampleFS : FeatureSet := ⟨"water", "polygon", [0, 0]⟩

/-- Concrete cache for the C2 counterexample: tile `(0,0,2)` is Pending
(empty placeholder), its parent `(0,0,1)` was never requested, and its
grandparent `(0,0,0)` is Ready and non-empty. -/
def cacheC2 : TileCache := fun k =>
  if k = ((0 : ℤ), (0 : ℤ), (2 : ℤ)) then .arr []
  else if k = ((0 : ℤ), (0 : ℤ), (0 : ℤ)) then .arr [sampleFS]
  else .undefinedJS

/-- `Math.trunc`: rounding toward zero. -/
noncomputable def mathTrunc (x : ℝ) : ℤ := if 0 ≤ x then ⌊x⌋ else ⌈x⌉

/-- The integer tile zoom of `updateTiles` (src/src/index.js line 155):
`Math.min(Math.trunc(this.camera.zoom), MAX_TILE_ZOOM)`. -/
noncomputable def tileZoom (zoom : ℝ) : ℤ := min (mathTrunc zoom) MAX_TILE_ZOOM

/-- The camera-zoom clamp of `handleZoom` (src/src/index.js line 343):
`Math.max(minZoom, Math.min(zoom, maxZoom))`. -/
noncomputable def clampZoom (minZoom maxZoom z : ℝ) : ℝ :=
  max minZoom (min z maxZoom)

/-! ### MercatorCoordinate (src/utils/mercator-coordinate.js), over ℝ.
The projection uses transcendental functions, so it is embedded in exact
real arithmetic (the claim's own reading: "exactly over real
arithmetic"); these definitions are necessarily noncomputable. -/

/-- `MercatorCoordinate.mercatorXfromLng`. -/
noncomputable def mercatorXfromLng (lng : ℝ) : ℝ := (180 + lng) / 360

/-- `MercatorCoordinate.mercatorYfromLat`:
`(180 - (180 / Math.PI * Math.log(Math.tan(Math.PI / 4 + lat * Math.PI / 360)))) / 360`. -/
noncomputable def mercatorYfromLat (lat : ℝ) : ℝ :=
  (180 - 180 / Real.pi * Real.log (Real.tan (Real.pi / 4 + lat * Real.pi / 360))) / 360

/-- `MercatorCoordinate.fromLngLat`: forward projection, re-centred so
the world spans `[-1, 1]` with origin at the map centre. -/
noncomputable def fromLngLat (lngLat : ℝ × ℝ) : ℝ × ℝ :=
  (-1 + mercatorXfromLng lngLat.1 * 2, 1 - mercatorYfromLat lngLat.2 * 2)

/-- `MercatorCoordinate.lngFromMercatorX`. -/
noncomputable def lngFromMercatorX (x : ℝ) : ℝ := x * 360 - 180

/-- `MercatorCoordinate.latFromMercatorY`. -/
noncomputable def latFromMercatorY (y : ℝ) : ℝ :=
  360 / Real.pi * Real.arctan (Real.exp ((180 - y * 360) * Real.pi / 180)) - 90

/-- `MercatorCoordinate.fromXY`: inverse projection from the centred
`[-1, 1]` space back to (lng, lat). -/
noncomputable def fromXY (xy : ℝ × ℝ) : ℝ × ℝ :=
  (lngFromMercatorX ((1 + xy.1) / 2), latFromMercatorY ((1 - xy.2) / 2))

/-! ### Geometry pipeline (src/utils/map-utils.js), over ℚ.
Feature coordinates are (lng, lat) pairs of rationals (JS doubles are a
subset of ℚ).  The pipeline is parametric in two external collaborators:
`proj`, standing for `MercatorCoordinate.fromLngLat` (whose numeric
content is transcendental and is verified separately over ℝ), and
`earcutTri`, standing for the `earcut` triangulation library (flat
vertex array and hole start indices in, triangle vertex indices out).
The claims about the pipeline hold for every choice of these two
functions. -/

/-- A GeoJSON geometry as consumed by `geometryToVertices`. -/
inductive Geometry where
  | polygon (rings : List (List (ℚ × ℚ)))
  | multiPolygon (polys : List (List (List (ℚ × ℚ))))
  | lineString (coords : List (ℚ × ℚ))
  | multiLineString (lines : List (List (ℚ × ℚ)))
  | point (coord : ℚ × ℚ)
  | unsupported (typeName : String)
deriving DecidableEq, Repr

/-- `earcut.flatten` for 2-D rings, modelled from the `earcut`
dependency (an external collaborator): concatenate all ring coordinates
into one flat array, and record the start index (in points) of every
ring after the first as a hole index (prefix sums of ring lengths). -/
def flattenRings (rings : List (List (ℚ × ℚ))) : List ℚ × List ℕ :=
  ((rings.flatMap (fun ring => ring.flatMap (fun p => [p.1, p.2]))),
    ((List.range rings.length).drop 1).map (fun i =>
      ((rings.take i).map List.length).sum))

/-- `verticesFromPolygon` (src/utils/map-utils.js lines 9-23): flatten
the rings, triangulate with earcut honouring the hole indices, and
resolve each triangle vertex index to its projected coordinate pair.
(JS reads `data.vertices[point * 2]`; out-of-range indices, which a real
earcut never produces, default to 0 here in place of `undefined`.) -/
def verticesFromPolygon (proj : ℚ × ℚ → ℚ × ℚ)
    (earcutTri : List ℚ → List ℕ → List ℕ)
    (coordinates : List (List (ℚ × ℚ))) : List ℚ :=
  let data := flattenRings coordinates
  (earcutTri data.1 data.2).flatMap (fun point =>
    let lng := data.1.getD (point * 2) 0
    let lat := data.1.getD (point * 2 + 1) 0
    let xy := proj (lng, lat)
    [xy.1, xy.2])

/-- `verticesFromLine` (src/utils/map-utils.js lines 27-43): seed with
the projected first two coordinates, then for each further coordinate
duplicate the previous projected pair (read back off the end of the
accumulated array) and append the new projected pair.  The source
presumes at least two coordinates; shorter input is mapped to `[]`. -/
def verticesFromLine (proj : ℚ × ℚ → ℚ × ℚ)
    (coordinates : List (ℚ × ℚ)) : List ℚ :=
  match coordinates with
  | c0 :: c1 :: rest =>
    rest.foldl (fun vertices c =>
      vertices ++ [vertices.getD (vertices.length - 2) 0,
        vertices.getD (vertices.length - 1) 0, (proj c).1, (proj c).2])
      [(proj c0).1, (proj c0).2, (proj c1).1, (proj c1).2]
  | _ => []

/-- `geometryToVertices` (src/utils/map-utils.js lines 54-87).  For
`MultiPolygon` the source builds `[polygon[0]]`, a singleton list of the
member's first ring, i.e. `polygon.take 1` (vector-tile members always
have at least one ring). -/
def geometryToVertices (proj : ℚ × ℚ → ℚ × ℚ)
    (earcutTri : List ℚ → List ℕ → List ℕ) : Geometry → List ℚ
  | .polygon coordinates => verticesFromPolygon proj earcutTri coordinates
  | .multiPolygon coordinates =>
    coordinates.flatMap (fun polygon =>
      verticesFromPolygon proj earcutTri (polygon.take 1))
  | .lineString coordinates => verticesFromLine proj coordinates
  | .multiLineString coordinates =>
    coordinates.flatMap (fun lineString => verticesFromLine proj lineString)
  | .point coordinates => [(proj coordinates).1, (proj coordinates).2]
  | .unsupported _ => []

/-- `getLayerPrimitive` (src/utils/map-utils.js lines 97-109). -/
def getLayerPrimitive : Geometry → String
  | .polygon _ => "polygon"
  | .multiPolygon _ => "polygon"
  | .point _ => "point"
  | .lineString _ => "line"
  | .multiLineString _ => "line"
  | .unsupported _ => "unknown"

/-- The body of the per-layer shaping loop of `fetchTile`
(src/utils/map-utils.js lines 119-148) for one requested layer: if the
layer is present in the decoded tile, every feature is classified by
`getLayerPrimitive` and its vertices appended to the polygon/point/line
bucket in feature order, and exactly three feature sets (polygon,
point, line — possibly with empty vertex arrays) are emitted; a
requested layer absent from the tile contributes nothing. -/
def layerFeatureSets (proj : ℚ × ℚ → ℚ × ℚ)
    (earcutTri : List ℚ → List ℕ → List ℕ)
    (vt : List (String × List Geometry)) (layer : String) : List FeatureSet :=
  match vt.lookup layer with
  | some features =>
    [ ⟨layer, "polygon", (features.filter
        (fun f => getLayerPrimitive f == "polygon")).flatMap
          (geometryToVertices proj earcutTri)⟩,
      ⟨layer, "point", (features.filter
        (fun f => getLayerPrimitive f == "point")).flatMap
          (geometryToVertices proj earcutTri)⟩,
      ⟨layer, "line", (features.filter
        (fun f => getLayerPrimitive f == "line")).flatMap
          (geometryToVertices proj earcutTri)⟩ ]
  | none => []

/-- The full shaping loop of `fetchTile` applied to the decoded tile:
`vt` maps the tile's layer names to the geometries of their features.
Requested layer names come from the keys of the `layers` options object
(a `for ... in` loop), hence a duplicate-free list. -/
def fetchTileData (proj : ℚ × ℚ → ℚ × ℚ)
    (earcutTri : List ℚ → List ℕ → List ℕ) (layers : List String)
    (vt : List (String × List Geometry)) : List FeatureSet :=
  layers.flatMap (layerFeatureSets proj earcutTri vt)

/-- Declarative form of the line expansion: starting from projected
point `p`, each remaining coordinate contributes one independent
segment `[prev.x, prev.y, cur.x, cur.y]`, so every intermediate
projected point appears twice. -/
def lineSegments (proj : ℚ × ℚ → ℚ × ℚ) (p : ℚ × ℚ) :
    List (ℚ × ℚ) → List ℚ
  | [] => []
  | c :: cs => [p.1, p.2, (proj c).1, (proj c).2] ++ lineSegments proj (proj c) cs

/-! ### Cache/dispatch lemmas -/

/-- Truthiness indicator used as a potential function for the
at-most-one-dispatch argument. -/
def tb (v : JsVal) : ℕ := if jsTruthy v then 1 else 0

lemma tb_le_one (v : JsVal) : tb v ≤ 1 := by
  unfold tb; split <;> simp

lemma jsTruthy_arr (fs : List FeatureSet) : jsTruthy (.arr fs) = true := rfl

lemma jsTruthy_undefined : jsTruthy .undefinedJS = false := rfl

lemma loadStep_count (st : TileCache × List TileKey) (k' k : TileKey) :
    List.count k (loadStep st k').2 + tb (st.1 k) ≤
      List.count k st.2 + tb ((loadStep st k').1 k) := by
  unfold loadStep
  by_cases h : jsTruthy (st.1 k') = true
  · simp [h]
  · simp only [h, Bool.false_eq_true, if_false]
    by_cases hk : k = k'
    · subst hk
      rw [Bool.not_eq_true] at h
      simp [setTile, tb, jsTruthy_arr, List.count_append, h]
    · simp [setTile, List.count_append, hk, Ne.symm hk,
        List.count_singleton]

lemma loadFold_count (l : List TileKey) (c : TileCache)
    (acc : List TileKey) (k : TileKey) :
    List.count k (l.foldl loadStep (c, acc)).2 + tb (c k) ≤
      List.count k acc + tb ((l.foldl loadStep (c, acc)).1 k) := by
  induction l generalizing c acc with
  | nil => simp
  | cons hd tl ih =>
    simp only [List.foldl_cons]
    have hstep := loadStep_count (c, acc) hd k
    rcases hstep' : loadStep (c, acc) hd with ⟨c', acc'⟩
    rw [hstep'] at hstep
    simp only [Prod.fst, Prod.snd] at hstep ⊢
    have hih := ih c' acc'
    omega

lemma loadTilesPass_count (c : TileCache) (l : List TileKey) (k : TileKey) :
    List.count k (loadTilesPass c l).2 + tb (c k) ≤
      tb ((loadTilesPass c l).1 k) := by
  have := loadFold_count l c [] k
  simpa [loadTilesPass] using this

lemma multiPass_count (passes : List (List TileKey)) (c : TileCache)
    (k : TileKey) :
    List.count k (multiPass c passes).2 + tb (c k) ≤
      tb ((multiPass c passes).1 k) := by
  induction passes generalizing c with
  | nil => simp [multiPass]
  | cons l ls ih =>
    simp only [multiPass, List.count_append]
    have h1 := loadTilesPass_count c l k
    have h2 := ih (loadTilesPass c l).1
    omega

/-- C1: once `updateTiles` has inserted the empty-placeholder entry for a
key into the tile cache, every later pass whose load list contains that
key skips it; across any sequence of `updateTiles` dispatch passes run
before the key's first request resolves, the key is dispatched at most
once in total. -/
theorem C1_at_most_one_fetch_per_key (c : TileCache)
    (passes : List (List TileKey)) (k : TileKey) :
    List.count k (multiPass c passes).2 ≤ 1 := by
  have h := multiPass_count passes c k
  have h2 := tb_le_one ((multiPass c passes).1 k)
  omega

lemma loadFold_mem_of_mem_dispatched (l : List TileKey) (c : TileCache)
    (acc : List TileKey) (k : TileKey)
    (h : k ∈ (l.foldl loadStep (c, acc)).2) : k ∈ acc ∨ k ∈ l := by
  induction l generalizing c acc with
  | nil => exact Or.inl (by simpa using h)
  | cons hd tl ih =>
    simp only [List.foldl_cons] at h
    rcases hstep : loadStep (c, acc) hd with ⟨c', acc'⟩
    rw [hstep] at h
    rcases ih c' acc' h with hacc | htl
    · unfold loadStep at hstep
      by_cases ht : jsTruthy (c hd) = true
      · simp only [ht, if_true] at hstep
        cases hstep
        exact Or.inl hacc
      · simp only [ht, Bool.false_eq_true, if_false] at hstep
        cases hstep
        rcases List.mem_append.mp hacc with h1 | h1
        · exact Or.inl h1
        · simp at h1
          subst h1
          exact Or.inr (List.mem_cons_self _ _)
    · exact Or.inr (List.mem_cons_of_mem _ htl)

lemma dispatched_subset (c : TileCache) (l : List TileKey) (k : TileKey)
    (h : k ∈ (loadTilesPass c l).2) : k ∈ l := by
  rcases loadFold_mem_of_mem_dispatched l c [] k h with h1 | h1
  · simp at h1
  · exact h1

/-- C3: the range filter runs before the dispatch loop, so no fetch is
ever dispatched for a tile whose x or y is outside `[0, 2^z)` or whose z
is outside `[0, MAX_TILE_ZOOM]`. -/
theorem C3_no_fetch_out_of_range (c : TileCache) (cands : List TileKey)
    (k : TileKey) (h : tileInRange k = false) :
    k ∉ (updateTilesDispatch c cands).2 := by
  intro hmem
  have := dispatched_subset c (cands.filter tileInRange) k hmem
  have := List.of_mem_filter this
  rw [h] at this
  exact Bool.false_ne_true this

/-- Witness for C3: the out-of-range tile `(5, 0, 1)` (x = 5 ≥ 2^1) is
filtered and not dispatched even on an empty cache. -/
theorem C3_no_fetch_out_of_range_witness :
    tileInRange ((5 : ℤ), (0 : ℤ), (1 : ℤ)) = false ∧
      ((5 : ℤ), (0 : ℤ), (1 : ℤ)) ∉
        (updateTilesDispatch emptyCache [((5 : ℤ), (0 : ℤ), (1 : ℤ))]).2 :=
  ⟨by norm_num [tileInRange, MAX_TILE_ZOOM],
    C3_no_fetch_out_of_range emptyCache _ _
      (by norm_num [tileInRange, MAX_TILE_ZOOM])⟩

lemma loadFold_acc_extends (l : List TileKey) (c : TileCache)
    (acc : List TileKey) :
    ∃ d, (l.foldl loadStep (c, acc)).2 = acc ++ d := by
  induction l generalizing c acc with
  | nil => exact ⟨[], by simp⟩
  | cons hd tl ih =>
    simp only [List.foldl_cons]
    unfold loadStep
    by_cases ht : jsTruthy (c hd) = true
    · simpa [ht] using ih c acc
    · simp only [ht, Bool.false_eq_true, if_false]
      rcases ih (setTile c hd (.arr [])) (acc ++ [hd]) with ⟨d, hd'⟩
      exact ⟨[hd] ++ d, by simpa using hd'⟩

lemma loadFold_dispatches_falsy (l : List TileKey) (c : TileCache)
    (acc : List TileKey) (k : TileKey) (hk : k ∈ l)
    (hf : jsTruthy (c k) = false) :
    k ∈ (l.foldl loadStep (c, acc)).2 := by
  induction l generalizing c acc with
  | nil => cases hk
  | cons hd tl ih =>
    by_cases he : hd = k
    · subst he
      have hstep : loadStep (c, acc) hd = (setTile c hd (.arr []), acc ++ [hd]) := by
        unfold loadStep
        rw [hf]
        simp
      simp only [List.foldl_cons, hstep]
      rcases loadFold_acc_extends tl (setTile c hd (.arr []))
        (acc ++ [hd]) with ⟨d, hpre⟩
      rw [hpre]
      simp
    · rcases List.mem_cons.mp hk with h1 | h1
      · exact absurd h1.symm he
      · by_cases ht : jsTruthy (c hd) = true
        · have hstep : loadStep (c, acc) hd = (c, acc) := by
            unfold loadStep
            rw [ht]
            simp
          simp only [List.foldl_cons, hstep]
          exact ih c acc h1 hf
        · have hstep : loadStep (c, acc) hd =
              (setTile c hd (.arr []), acc ++ [hd]) := by
            unfold loadStep
            simp only [ht, Bool.false_eq_true, if_false]
          simp only [List.foldl_cons, hstep]
          have hck : setTile c hd (.arr []) k = c k := by
            unfold setTile
            exact if_neg (fun h : k = hd => he h.symm)
          exact ih (setTile c hd (.arr [])) (acc ++ [hd]) h1
            (by rw [hck]; exact hf)

/-- C10: after a fetch/decode failure the worker posts `{ tile }` with no
`tileData`; `handleTileWorker` therefore assigns `undefined` to the
tile's cache entry, which is falsy, so the dispatch guard of the next
`updateTiles` pass whose load list contains the key re-dispatches a
fetch for it (the failed tile does not stay held as Pending forever). -/
theorem C10_failed_tile_rerequestable (c : TileCache) (tile : TileKey)
    (l : List TileKey) (hmem : tile ∈ l) :
    (handleTileWorker c tile none) tile = .undefinedJS ∧
      tile ∈ (loadTilesPass (handleTileWorker c tile none) l).2 := by
  have hset : (handleTileWorker c tile none) tile = .undefinedJS := by
    simp [handleTileWorker, setTile]
  exact ⟨hset, loadFold_dispatches_falsy l _ [] tile hmem
    (by rw [hset]; rfl)⟩

/-- Witness for C10: a failed tile `(0, 0, 0)` is re-dispatched by the
next pass whose load list contains it. -/
theorem C10_failed_tile_rerequestable_witness :
    (handleTileWorker emptyCache ((0 : ℤ), (0 : ℤ), (0 : ℤ)) none)
        ((0 : ℤ), (0 : ℤ), (0 : ℤ)) = .undefinedJS ∧
      ((0 : ℤ), (0 : ℤ), (0 : ℤ)) ∈
        (loadTilesPass
          (handleTileWorker emptyCache ((0 : ℤ), (0 : ℤ), (0 : ℤ)) none)
          [((0 : ℤ), (0 : ℤ), (0 : ℤ))]).2 :=
  C10_failed_tile_rerequestable emptyCache _ _ (by simp)

/-! ### C2: placeholder fallback -/

/-- Counterexample to C2: tile `(0,0,2)` has a present-but-empty cache
entry; its nearest Ready non-empty ancestor (walking up one level at a
time) is the grandparent `(0,0,0)` with feature sets `[sampleFS]`, but
`getPlaceholderTile` — which consults only the direct parent — returns
the empty sequence instead. -/
theorem C2_counterexample :
    cacheC2 ((0 : ℤ), (0 : ℤ), (2 : ℤ)) = .arr [] ∧
    cacheC2 (getParent ((0 : ℤ), (0 : ℤ), (2 : ℤ))) = .undefinedJS ∧
    nearestReadyAncestorFS cacheC2 2 ((0 : ℤ), (0 : ℤ), (2 : ℤ)) =
      some [sampleFS] ∧
    getPlaceholderTile cacheC2 ((0 : ℤ), (0 : ℤ), (2 : ℤ)) = [] := by
  refine ⟨rfl, rfl, ?_, ?_⟩
  · decide
  · decide

lemma childFold_flatMap (c : TileCache) (l : List TileKey)
    (acc : List FeatureSet) :
    l.foldl (fun acc child =>
        if jsLenPos (c child) then acc ++ jsFeatures (c child) else acc) acc =
      acc ++ l.flatMap (fun ch =>
        if jsLenPos (c ch) then jsFeatures (c ch) else []) := by
  induction l generalizing acc with
  | nil => simp
  | cons hd tl ih =>
    simp only [List.foldl_cons, List.flatMap_cons]
    by_cases hlen : jsLenPos (c hd) = true
    · rw [if_pos hlen, if_pos hlen, ih]
      simp
    · rw [if_neg hlen, if_neg hlen, ih]
      simp

/-- C2 (amended): the placeholder lookup consults only the *direct*
parent and the four *direct* children: if the direct parent's entry is
present and non-empty its feature sets are returned; otherwise the
feature sets of the present non-empty direct children are concatenated
in child order; if none qualify the result is the empty sequence.  No
walk to further ancestors or deeper descendants takes place. -/
theorem C2_placeholder_direct_parent_or_children (c : TileCache)
    (t : TileKey) :
    getPlaceholderTile c t =
      if jsLenPos (c (getParent t)) then jsFeatures (c (getParent t))
      else (getChildren t).flatMap (fun ch =>
        if jsLenPos (c ch) then jsFeatures (c ch) else []) := by
  unfold getPlaceholderTile childFeatureSets
  by_cases hp : jsLenPos (c (getParent t)) = true
  · rw [if_pos hp, if_pos hp]
  · rw [if_neg hp, if_neg hp]
    simpa using childFold_flatMap c (getChildren t) []

/-! ### C8: buffered tiles include parent and grandparent -/

lemma mem_intRange (a b x : ℤ) (h1 : a ≤ x) (h2 : x ≤ b) :
    x ∈ intRange a b := by
  have hmem : (x - a).toNat ∈ List.range (b + 1 - a).toNat :=
    List.mem_range.mpr (by omega)
  have hval : a + (((x - a).toNat : ℕ) : ℤ) = x := by omega
  unfold intRange
  exact List.mem_map.mpr ⟨(x - a).toNat, hmem, hval⟩

/-- C8: for every tile `(bufX, bufY, z)` in the buffer-expanded
rectangle, `updateTiles` pushes the tile itself, its direct parent, and
its grandparent onto the buffered tile list (before deduplication and
range filtering). -/
theorem C8_buffered_includes_two_ancestor_levels
    (minX maxX minY maxY tileBuffer z bufX bufY : ℤ)
    (h1 : minX - tileBuffer ≤ bufX) (h2 : bufX ≤ maxX + tileBuffer)
    (h3 : minY - tileBuffer ≤ bufY) (h4 : bufY ≤ maxY + tileBuffer) :
    (bufX, bufY, z) ∈ bufferedTilesList minX maxX minY maxY tileBuffer z ∧
    getParent (bufX, bufY, z) ∈
      bufferedTilesList minX maxX minY maxY tileBuffer z ∧
    getParent (getParent (bufX, bufY, z)) ∈
      bufferedTilesList minX maxX minY maxY tileBuffer z := by
  have hx := mem_intRange _ _ _ h1 h2
  have hy := mem_intRange _ _ _ h3 h4
  refine ⟨?_, ?_, ?_⟩ <;>
    · unfold bufferedTilesList
      rw [List.mem_flatMap]
      exact ⟨bufX, hx, by
        rw [List.mem_flatMap]
        exact ⟨bufY, hy, by simp⟩⟩

/-- Witness for C8: with rectangle `[0,1] × [0,1]`, buffer 1 and
`z = 2`, the buffered corner tile `(-1, 2, 2)` comes with its parent and
grandparent. -/
theorem C8_buffered_includes_two_ancestor_levels_witness :
    ((0 : ℤ) - 1 ≤ (-1 : ℤ) ∧ (-1 : ℤ) ≤ 1 + 1 ∧
      (0 : ℤ) - 1 ≤ (2 : ℤ) ∧ (2 : ℤ) ≤ 1 + 1) ∧
    (((-1 : ℤ), (2 : ℤ), (2 : ℤ)) ∈ bufferedTilesList 0 1 0 1 1 2 ∧
      getParent ((-1 : ℤ), (2 : ℤ), (2 : ℤ)) ∈ bufferedTilesList 0 1 0 1 1 2 ∧
      getParent (getParent ((-1 : ℤ), (2 : ℤ), (2 : ℤ))) ∈
        bufferedTilesList 0 1 0 1 1 2) :=
  ⟨by norm_num,
    C8_buffered_includes_two_ancestor_levels 0 1 0 1 1 2 (-1) 2
      (by norm_num) (by norm_num) (by norm_num) (by norm_num)⟩

/-! ### C9: integer tile zoom -/

/-- Counterexample to C9: with `minZoom = -1`, `maxZoom = 18` the
clamped camera zoom `-1/2` is reachable, and there the code's
`Math.min(Math.trunc(zoom), MAX_TILE_ZOOM)` gives `0`, not
`min(floor(zoom), MAX_TILE_ZOOM) = -1` as the claim states. -/
theorem C9_counterexample :
    clampZoom (-1) 18 (-1/2) = (-1/2 : ℝ) ∧
      tileZoom (-1/2) ≠ min ⌊(-1/2 : ℝ)⌋ MAX_TILE_ZOOM := by
  constructor
  · unfold clampZoom
    norm_num
  · unfold tileZoom mathTrunc MAX_TILE_ZOOM
    rw [if_neg (by norm_num : ¬ (0 : ℝ) ≤ -1/2)]
    have hceil : ⌈(-1/2 : ℝ)⌉ = 0 := by norm_num
    have hfloor : ⌊(-1/2 : ℝ)⌋ = -1 := by norm_num
    rw [hceil, hfloor]
    decide

/-- C9 (amended): the integer tile zoom is
`min(trunc(camera.zoom), MAX_TILE_ZOOM)`; whenever the configured
`minZoom` is non-negative (so every clamped camera zoom is
non-negative), truncation coincides with floor and the tile zoom equals
`min(floor(camera.zoom), MAX_TILE_ZOOM)` as the claim states. -/
theorem C9_tile_zoom_floor_of_nonneg (minZoom maxZoom z : ℝ)
    (h : 0 ≤ minZoom) :
    tileZoom (clampZoom minZoom maxZoom z) =
      min ⌊clampZoom minZoom maxZoom z⌋ MAX_TILE_ZOOM := by
  have hc : 0 ≤ clampZoom minZoom maxZoom z :=
    le_trans h (le_max_left _ _)
  unfold tileZoom mathTrunc
  rw [if_pos hc]

/-- Witness for C9's amended statement at `minZoom = 0`, `maxZoom = 18`,
`zoom = 13` (the default options). -/
theorem C9_tile_zoom_floor_of_nonneg_witness :
    (0 : ℝ) ≤ 0 ∧
      tileZoom (clampZoom 0 18 13) = min ⌊clampZoom (0 : ℝ) 18 13⌋ MAX_TILE_ZOOM :=
  ⟨le_refl 0, C9_tile_zoom_floor_of_nonneg 0 18 13 (le_refl 0)⟩

/-! ### C6: Mercator round trip -/

/-- C6: for longitudes in `(-180, 180)` and latitudes in
`(-85.05, 85.05)`, composing the forward projection `fromLngLat` with
the inverse projection `fromXY` reproduces the original pair, exactly in
real arithmetic. -/
theorem C6_mercator_roundtrip (lng lat : ℝ) (h1 : -180 < lng)
    (h2 : lng < 180) (h3 : -85.05 < lat) (h4 : lat < 85.05) :
    fromXY (fromLngLat (lng, lat)) = (lng, lat) := by
  have hπ := Real.pi_pos
  have hπ' : Real.pi ≠ 0 := ne_of_gt hπ
  unfold fromXY fromLngLat mercatorXfromLng mercatorYfromLat
    lngFromMercatorX latFromMercatorY
  dsimp only
  refine Prod.ext ?_ ?_
  · dsimp only
    ring
  · dsimp only
    set θ := Real.pi / 4 + lat * Real.pi / 360 with hθ
    have h90 : (0 : ℝ) < 90 + lat := by linarith
    have h90' : (0 : ℝ) < 90 - lat := by linarith
    have hp1 : 0 < Real.pi * (90 + lat) := mul_pos hπ h90
    have hp2 : 0 < Real.pi * (90 - lat) := mul_pos hπ h90'
    have hθpos : 0 < θ := by rw [hθ]; nlinarith
    have hθlt : θ < Real.pi / 2 := by rw [hθ]; nlinarith
    have htan : 0 < Real.tan θ := Real.tan_pos_of_pos_of_lt_pi_div_two hθpos hθlt
    set L := Real.log (Real.tan θ) with hL
    have harg :
        (180 - (1 - (1 - (180 - 180 / Real.pi * L) / 360 * 2)) / 2 * 360) *
          Real.pi / 180 = L := by
      field_simp
      ring
    rw [harg, Real.exp_log htan, Real.arctan_tan (by linarith) hθlt, hθ]
    field_simp
    ring

/-- Witness for C6 at `(lng, lat) = (0, 0)`. -/
theorem C6_mercator_roundtrip_witness :
    ((-180 : ℝ) < 0 ∧ (0 : ℝ) < 180 ∧ (-85.05 : ℝ) < 0 ∧ (0 : ℝ) < 85.05) ∧
      fromXY (fromLngLat ((0 : ℝ), (0 : ℝ))) = ((0 : ℝ), (0 : ℝ)) :=
  ⟨by norm_num, C6_mercator_roundtrip 0 0 (by norm_num) (by norm_num)
    (by norm_num) (by norm_num)⟩

/-! ### C5: line expansion -/

lemma lineSegments_length (proj : ℚ × ℚ → ℚ × ℚ) (p : ℚ × ℚ)
    (cs : List (ℚ × ℚ)) : (lineSegments proj p cs).length = 4 * cs.length := by
  induction cs generalizing p with
  | nil => rfl
  | cons c cs ih =>
    simp only [lineSegments, List.length_append, ih, List.length_cons,
      List.length_nil]
    omega

lemma lineFold_eq (proj : ℚ × ℚ → ℚ × ℚ) (rest : List (ℚ × ℚ))
    (l : List ℚ) (x y : ℚ) :
    rest.foldl (fun vertices c =>
      vertices ++ [vertices.getD (vertices.length - 2) 0,
        vertices.getD (vertices.length - 1) 0, (proj c).1, (proj c).2])
      (l ++ [x, y]) =
    (l ++ [x, y]) ++ lineSegments proj (x, y) rest := by
  induction rest generalizing l x y with
  | nil => simp [lineSegments]
  | cons c cs ih =>
    have hlen : (l ++ [x, y]).length = l.length + 2 := by simp
    have e1 : (l ++ [x, y]).getD ((l ++ [x, y]).length - 2) 0 = x := by
      rw [hlen]
      simp only [Nat.add_sub_cancel]
      rw [List.getD_append_right l [x, y] 0 l.length (le_refl _)]
      simp
    have e2 : (l ++ [x, y]).getD ((l ++ [x, y]).length - 1) 0 = y := by
      rw [hlen]
      have h21 : l.length + 2 - 1 = l.length + 1 := by omega
      rw [h21]
      rw [List.getD_append_right l [x, y] 0 (l.length + 1) (by omega)]
      simp
    simp only [List.foldl_cons, e1, e2]
    have hacc : (l ++ [x, y]) ++ [x, y, (proj c).1, (proj c).2] =
        ((l ++ [x, y]) ++ [x, y]) ++ [(proj c).1, (proj c).2] := by
      simp [List.append_assoc]
    rw [hacc, ih]
    simp [lineSegments, List.append_assoc]

/-- C5: for a LineString with `k ≥ 2` points, `verticesFromLine` emits
the disconnected-segment expansion — one independent segment per
consecutive coordinate pair, every intermediate projected point
duplicated — for a total of exactly `4 * (k - 1)` floats. -/
theorem C5_line_triangulation (proj : ℚ × ℚ → ℚ × ℚ) (c0 c1 : ℚ × ℚ)
    (rest : List (ℚ × ℚ)) :
    verticesFromLine proj (c0 :: c1 :: rest) =
      lineSegments proj (proj c0) (c1 :: rest) ∧
    (verticesFromLine proj (c0 :: c1 :: rest)).length =
      4 * ((c0 :: c1 :: rest).length - 1) := by
  have hchar : verticesFromLine proj (c0 :: c1 :: rest) =
      lineSegments proj (proj c0) (c1 :: rest) := by
    have h := lineFold_eq proj rest [(proj c0).1, (proj c0).2]
      (proj c1).1 (proj c1).2
    simp only [List.cons_append, List.nil_append] at h
    simp only [verticesFromLine]
    rw [h]
    simp [lineSegments]
  refine ⟨hchar, ?_⟩
  rw [hchar, lineSegments_length]
  simp

/-! ### C4: fixed per-layer trio -/

lemma layerFS_filter_eq (proj : ℚ × ℚ → ℚ × ℚ)
    (earcutTri : List ℚ → List ℕ → List ℕ)
    (vt : List (String × List Geometry)) (hd ℓ : String) :
    (layerFeatureSets proj earcutTri vt hd).filter
        (fun fs => fs.layer == ℓ) =
      if hd = ℓ then layerFeatureSets proj earcutTri vt ℓ else [] := by
  by_cases he : hd = ℓ
  · subst he
    rw [if_pos rfl]
    unfold layerFeatureSets
    cases vt.lookup hd with
    | none => rfl
    | some features => simp [List.filter]
  · rw [if_neg he]
    unfold layerFeatureSets
    cases vt.lookup hd with
    | none => rfl
    | some features =>
      have hbe : (hd == ℓ) = false := beq_eq_false_iff_ne.mpr he
      simp [List.filter, hbe]

lemma fetchTileData_filter_not_mem (proj : ℚ × ℚ → ℚ × ℚ)
    (earcutTri : List ℚ → List ℕ → List ℕ) (layers : List String)
    (vt : List (String × List Geometry)) (ℓ : String) (h : ℓ ∉ layers) :
    (fetchTileData proj earcutTri layers vt).filter
      (fun fs => fs.layer == ℓ) = [] := by
  induction layers with
  | nil => rfl
  | cons hd tl ih =>
    have hne : hd ≠ ℓ := fun he => h (he ▸ List.mem_cons_self _ _)
    have htl : ℓ ∉ tl := fun ht => h (List.mem_cons_of_mem _ ht)
    simp only [fetchTileData, List.flatMap_cons, List.filter_append]
    rw [show tl.flatMap (layerFeatureSets proj earcutTri vt) =
      fetchTileData proj earcutTri tl vt from rfl]
    rw [ih htl, layerFS_filter_eq, if_neg hne]
    rfl

lemma fetchTileData_filter_mem (proj : ℚ × ℚ → ℚ × ℚ)
    (earcutTri : List ℚ → List ℕ → List ℕ) (layers : List String)
    (vt : List (String × List Geometry)) (ℓ : String)
    (hnd : layers.Nodup) (hmem : ℓ ∈ layers) :
    (fetchTileData proj earcutTri layers vt).filter
      (fun fs => fs.layer == ℓ) = layerFeatureSets proj earcutTri vt ℓ := by
  induction layers with
  | nil => cases hmem
  | cons hd tl ih =>
    simp only [fetchTileData, List.flatMap_cons, List.filter_append]
    rw [show tl.flatMap (layerFeatureSets proj earcutTri vt) =
      fetchTileData proj earcutTri tl vt from rfl]
    rw [layerFS_filter_eq]
    by_cases he : hd = ℓ
    · subst he
      rw [if_pos rfl]
      have htl : hd ∉ tl := (List.nodup_cons.mp hnd).1
      rw [fetchTileData_filter_not_mem proj earcutTri tl vt hd htl]
      simp
    · rw [if_neg he]
      rcases List.mem_cons.mp hmem with h1 | h1
      · exact absurd h1.symm he
      · simpa using ih (List.nodup_cons.mp hnd).2 h1

/-- C4: for a duplicate-free requested layer list, a requested layer
present in the decoded tile yields exactly three feature sets in the
fixed order polygon, point, line (even when some vertex buckets are
empty), and a requested layer absent from the tile yields none. -/
theorem C4_three_feature_sets_per_present_layer (proj : ℚ × ℚ → ℚ × ℚ)
    (earcutTri : List ℚ → List ℕ → List ℕ) (layers : List String)
    (vt : List (String × List Geometry)) (ℓ : String)
    (hnd : layers.Nodup) (hmem : ℓ ∈ layers) :
    (∀ features, vt.lookup ℓ = some features →
      ((fetchTileData proj earcutTri layers vt).filter
        (fun fs => fs.layer == ℓ)).map FeatureSet.type =
          ["polygon", "point", "line"]) ∧
    (vt.lookup ℓ = none →
      (fetchTileData proj earcutTri layers vt).filter
        (fun fs => fs.layer == ℓ) = []) := by
  have hfe := fetchTileData_filter_mem proj earcutTri layers vt ℓ hnd hmem
  constructor
  · intro features hf
    rw [hfe]
    unfold layerFeatureSets
    rw [hf]
    rfl
  · intro hf
    rw [hfe]
    unfold layerFeatureSets
    rw [hf]

/-- Witness for C4: with requested layers `["water", "road"]` and a tile
containing only a `water` layer with one point feature, the `water`
entries are exactly the polygon/point/line trio. -/
theorem C4_three_feature_sets_per_present_layer_witness :
    ["water", "road"].Nodup ∧
      ((fetchTileData id (fun _ _ => []) ["water", "road"]
          [("water", [Geometry.point ((0 : ℚ), (0 : ℚ))])]).filter
        (fun fs => fs.layer == "water")).map FeatureSet.type =
          ["polygon", "point", "line"] :=
  ⟨by decide,
    (C4_three_feature_sets_per_present_layer id (fun _ _ => [])
      ["water", "road"] [("water", [Geometry.point ((0 : ℚ), (0 : ℚ))])]
      "water" (by decide) (by decide)).1 _ rfl⟩

/-! ### C7: MultiPolygon outer rings only -/

/-- C7: for a `MultiPolygon` the triangulator passes only each member's
outer (first) ring to the polygon triangulation and concatenates the
results — inner rings (holes) of the members contribute nothing, so the
output is invariant under discarding them — whereas for a single
`Polygon` the whole ring list, holes included, is passed. -/
theorem C7_multipolygon_outer_rings_only (proj : ℚ × ℚ → ℚ × ℚ)
    (earcutTri : List ℚ → List ℕ → List ℕ)
    (polys : List (List (List (ℚ × ℚ)))) (rings : List (List (ℚ × ℚ))) :
    geometryToVertices proj earcutTri (.multiPolygon polys) =
      polys.flatMap (fun polygon =>
        verticesFromPolygon proj earcutTri (polygon.take 1)) ∧
    geometryToVertices proj earcutTri (.multiPolygon polys) =
      geometryToVertices proj earcutTri
        (.multiPolygon (polys.map (fun polygon => polygon.take 1))) ∧
    geometryToVertices proj earcutTri (.polygon rings) =
      verticesFromPolygon proj earcutTri rings := by
  refine ⟨rfl, ?_, rfl⟩
  simp only [geometryToVertices]
  induction polys with
  | nil => rfl
  | cons p ps ih =>
    simp only [List.map_cons, List.flatMap_cons, List.take_take,
      Nat.min_self, ih]

end WebglMap
